import Mathlib

/-!
# Blindfold-Chess core: shallow embedding and verification

This file embeds the move-generator and target-selector core of the
Blindfold-Chess drill (TypeScript sources `chessLogic.ts` — two copies —
and the history-update step of the app component) into Lean 4, and proves
the specification claims about them.

Conventions of the embedding:
* squares are natural numbers (the drill only ever passes values in
  `[0,63]`; claims carry that hypothesis where they state it);
* board coordinates are integers (`row = square / 8`, `col = square % 8`),
  since the stepping arithmetic of the generator can leave `[0,7]`;
* JavaScript numbers used as weights (`1.0`, `0.3`, `0.6`) are embedded as
  rationals `ℚ`;
* the single `Math.random()` draw an invocation of `generateTargetSquare`
  makes is threaded in as an explicit parameter `rnd : ℚ` (a value of the
  ambient generator, `0 ≤ rnd < 1`);
* JavaScript `Map` is embedded as an association list with the insertion
  order and update-in-place semantics of `Map.set` / `Map.get`, since the
  source iterates maps in insertion order;
* the unbounded `while` loop of the sliding-move generator is embedded
  with an explicit fuel of 16, which is never exhausted: the loop leaves
  the 8×8 board after at most 10 steps for every direction it is called
  with (all directions are nonzero and step by at most one row/column).
-/

/-- The `PieceType` union of `src/types.ts`:
`'QUEEN' | 'ROOK' | 'BISHOP' | 'KNIGHT' | 'KING' | 'PAWN'`
(PAWN is defined but has no case in `getLegalMoves`, so it never has
moves). -/
inductive PieceType where
  | QUEEN
  | ROOK
  | BISHOP
  | KNIGHT
  | KING
  | PAWN
deriving DecidableEq, Repr

/-- The `PieceColor` union of `src/types.ts`: `'WHITE' | 'BLACK'` (the
drill only ever creates `'WHITE'` pieces). -/
inductive PieceColor where
  | WHITE
  | BLACK
deriving DecidableEq, Repr

/-- The `Piece` record of `src/types.ts`: id, type, color, square
(0–63) and visibility flag.  The embedded functions read only `id`,
`type` and `square`; `color` and `isVisible` are cosmetic. -/
structure Piece where
  id : String
  type : PieceType
  color : PieceColor
  square : Nat
  isVisible : Bool
deriving DecidableEq, Repr

/-! ## JavaScript collection primitives -/

/-- `[...new Set(moves)]`: deduplication keeping the first occurrence of
each element, in insertion order. -/
def jsSetAux : List Nat → List Nat → List Nat
  | [], _ => []
  | x :: xs, seen => if x ∈ seen then jsSetAux xs seen else x :: jsSetAux xs (x :: seen)

/-- `[...new Set(moves)]` on an empty "seen" accumulator. -/
def jsSet (l : List Nat) : List Nat := jsSetAux l []

/-- JavaScript `Map.set`: update the value in place if the key is present
(keeping its position), otherwise append the new entry. -/
def mapSet {K V : Type} [DecidableEq K] (m : List (K × V)) (k : K) (v : V) : List (K × V) :=
  if m.any (fun e => decide (e.1 = k)) then
    m.map (fun e => if e.1 = k then (k, v) else e)
  else
    m ++ [(k, v)]

/-- JavaScript `Map.get`: the value of the entry with the given key, if
any (keys are unique by construction of `mapSet`). -/
def mapGet {K V : Type} [DecidableEq K] (m : List (K × V)) (k : K) : Option V :=
  (m.find? (fun e => decide (e.1 = k))).map (·.2)

/-! ## Move generator (`getLegalMoves`, `chessLogic.ts`) -/

/-- The guard of the helper `addIfOnBoard`: row and column within `[0,7]`. -/
def onBoard (r c : Int) : Prop := 0 ≤ r ∧ r < 8 ∧ 0 ≤ c ∧ c < 8

instance (r c : Int) : Decidable (onBoard r c) := by unfold onBoard; infer_instance

/-- `addIfOnBoard`: `r * 8 + c` when on the board, `null` otherwise. -/
def addIfOnBoard (r c : Int) : Option Nat :=
  if onBoard r c then some ((r * 8 + c).toNat) else none

/-- The `while` loop body of `addSlidingMoves`: starting at `(r, c)`, push
each on-board square, stopping after pushing a blocker.  The fuel is never
exhausted at the fuel value (16) the embedding uses (see the header). -/
def slideAux (blockers : List Nat) (dr dc : Int) : Nat → Int → Int → List Nat
  | 0, _, _ => []
  | fuel + 1, r, c =>
    if onBoard r c then
      let targetSquare := (r * 8 + c).toNat
      if targetSquare ∈ blockers then [targetSquare]
      else targetSquare :: slideAux blockers dr dc fuel (r + dr) (c + dc)
    else []

/-- Fuel for the sliding loop (see the header remark; 10 steps suffice). -/
def slideFuel : Nat := 16

/-- `addSlidingMoves`: for each direction, slide outward from the square
one step at a time, collecting squares in direction order. -/
def addSlidingMoves (blockers : List Nat) (row col : Int)
    (directions : List (Int × Int)) : List Nat :=
  directions.flatMap (fun d => slideAux blockers d.1 d.2 slideFuel (row + d.1) (col + d.2))

/-- The eight knight offsets, in source order. -/
def knightOffsets : List (Int × Int) :=
  [(-2, -1), (-2, 1), (-1, -2), (-1, 2), (1, -2), (1, 2), (2, -1), (2, 1)]

/-- The king adjacency offsets, in the order of the source's double loop
(`dr` from `-1` to `1`, `dc` from `-1` to `1`, skipping `(0, 0)`). -/
def kingOffsets : List (Int × Int) :=
  [(-1, -1), (-1, 0), (-1, 1), (0, -1), (0, 1), (1, -1), (1, 0), (1, 1)]

/-- Rook directions, in source order. -/
def rookDirections : List (Int × Int) := [(-1, 0), (1, 0), (0, -1), (0, 1)]

/-- Bishop directions, in source order. -/
def bishopDirections : List (Int × Int) := [(-1, -1), (-1, 1), (1, -1), (1, 1)]

/-- Queen directions, in source order. -/
def queenDirections : List (Int × Int) :=
  [(-1, 0), (1, 0), (0, -1), (0, 1), (-1, -1), (-1, 1), (1, -1), (1, 1)]

/-- `getLegalMoves` of `services/chessLogic.ts` (the copy next to
`generateTargetSquare`). -/
def getLegalMoves (square : Nat) (t : PieceType) (blockers : List Nat) : List Nat :=
  let row : Int := (square / 8 : Nat)
  let col : Int := (square % 8 : Nat)
  let moves : List Nat :=
    match t with
    | .KNIGHT => knightOffsets.filterMap (fun d => addIfOnBoard (row + d.1) (col + d.2))
    | .ROOK => addSlidingMoves blockers row col rookDirections
    | .BISHOP => addSlidingMoves blockers row col bishopDirections
    | .QUEEN => addSlidingMoves blockers row col queenDirections
    | .KING => kingOffsets.filterMap (fun d => addIfOnBoard (row + d.1) (col + d.2))
    | .PAWN => []
  jsSet moves

/-! ## Standalone documented copy (`utils/chessLogic.ts`) -/

/-- The sliding loop of the standalone documented copy of the move
generator (character-for-character the same algorithm). -/
def slideAuxB (blockers : List Nat) (dr dc : Int) : Nat → Int → Int → List Nat
  | 0, _, _ => []
  | fuel + 1, r, c =>
    if onBoard r c then
      let targetSquare := (r * 8 + c).toNat
      if targetSquare ∈ blockers then [targetSquare]
      else targetSquare :: slideAuxB blockers dr dc fuel (r + dr) (c + dc)
    else []

/-- `addSlidingMoves` of the standalone copy. -/
def addSlidingMovesB (blockers : List Nat) (row col : Int)
    (directions : List (Int × Int)) : List Nat :=
  directions.flatMap (fun d => slideAuxB blockers d.1 d.2 slideFuel (row + d.1) (col + d.2))

/-- `getLegalMoves` of the standalone documented `chessLogic.ts` copy. -/
def getLegalMovesB (square : Nat) (t : PieceType) (blockers : List Nat) : List Nat :=
  let row : Int := (square / 8 : Nat)
  let col : Int := (square % 8 : Nat)
  let moves : List Nat :=
    match t with
    | .KNIGHT => knightOffsets.filterMap (fun d => addIfOnBoard (row + d.1) (col + d.2))
    | .ROOK => addSlidingMovesB blockers row col rookDirections
    | .BISHOP => addSlidingMovesB blockers row col bishopDirections
    | .QUEEN => addSlidingMovesB blockers row col queenDirections
    | .KING => kingOffsets.filterMap (fun d => addIfOnBoard (row + d.1) (col + d.2))
    | .PAWN => []
  jsSet moves

/-! ## Target selector (`generateTargetSquare`, `services/chessLogic.ts`) -/

/-- The "valid move set" of piece `p` on the board `pieces`: its legal
moves with every other piece as blocker, filtered to unoccupied squares
(captures are not allowed as targets). -/
def validMovesOf (pieces : List Piece) (p : Piece) : List Nat :=
  let blockers := (pieces.map Piece.square).filter (fun sq => decide (sq ≠ p.square))
  let moves := getLegalMoves p.square p.type blockers
  moves.filter (fun m => ! pieces.any (fun occupied => decide (occupied.square = m)))

/-- One step of the reach-count bookkeeping: fold a piece's valid move
list into the `squareReachCounts` and `squareReacher` maps. -/
def tallyMoves (cr : List (Nat × Nat) × List (Nat × String)) (pid : String)
    (vm : List Nat) : List (Nat × Nat) × List (Nat × String) :=
  vm.foldl
    (fun cr m =>
      let count := (mapGet cr.1 m).getD 0
      (mapSet cr.1 m (count + 1), if count = 0 then mapSet cr.2 m pid else cr.2))
    cr

/-- The `squareReachCounts` and `squareReacher` maps after the first pass
of `generateTargetSquare` over all pieces. -/
def countsReacher (pieces : List Piece) : List (Nat × Nat) × List (Nat × String) :=
  pieces.foldl (fun cr p => tallyMoves cr p.id (validMovesOf pieces p)) ([], [])

/-- `squareReachCounts`: how many pieces reach each candidate square. -/
def squareReachCounts (pieces : List Piece) : List (Nat × Nat) :=
  (countsReacher pieces).1

/-- `squareReacher`: the first piece found to reach each square. -/
def squareReacher (pieces : List Piece) : List (Nat × String) :=
  (countsReacher pieces).2

/-- The `pieceMoves` map: each piece id to its valid move list (later
entries with the same id overwrite earlier ones, as `Map.set` does). -/
def pieceMovesOf (pieces : List Piece) : List (String × List Nat) :=
  pieces.foldl (fun m p => mapSet m p.id (validMovesOf pieces p)) []

/-- `uniqueTargets`: the squares with reach count exactly 1, in map
insertion order. -/
def uniqueTargetsOf (pieces : List Piece) : List Nat :=
  ((squareReachCounts pieces).filter (fun e => decide (e.2 = 1))).map (·.1)

/-- `allMoves` of the no-unique-target fallback: the concatenation of the
`pieceMoves` values in insertion order. -/
def allMovesOf (pieces : List Piece) : List Nat :=
  (pieceMovesOf pieces).foldl (fun acc e => acc ++ e.2) []

/-- The per-piece weight of the selector: start at `1.0`, subtract `0.3`
per occurrence of the id in the history, subtract `0.6` if it is the last
entry, force `0` if it is the last two entries, clamp at `0`. -/
def weightOf (history : List String) (pid : String) : ℚ :=
  let historyCount := (history.filter (fun id => decide (id = pid))).length
  let w1 : ℚ := 1 - historyCount * (3 / 10)
  let w2 : ℚ :=
    if 0 < history.length ∧ history.get? (history.length - 1) = some pid then w1 - 6 / 10
    else w1
  let w3 : ℚ :=
    if 2 ≤ history.length ∧ history.get? (history.length - 1) = some pid ∧
        history.get? (history.length - 2) = some pid then 0
    else w2
  max 0 w3

/-- The `pieceWeights` map of the selector. -/
def pieceWeightsOf (pieces : List Piece) (history : List String) : List (String × ℚ) :=
  pieces.foldl (fun m p => mapSet m p.id (weightOf history p.id)) []

/-- The `weightedPool` over the unique targets: each square paired with
the weight of its sole reacher (`pieceWeights.get(...) || 0`). -/
def weightedPoolOf (pieces : List Piece) (history : List String) : List (Nat × ℚ) :=
  (uniqueTargetsOf pieces).map (fun sq =>
    (sq, (mapGet (pieceWeightsOf pieces history)
            ((mapGet (squareReacher pieces) sq).getD "")).getD 0))

/-- The walk of the weighted pool: return the first entry whose weight
exceeds the remaining draw value, subtracting weights as it goes. -/
def pickLoop : List (Nat × ℚ) → ℚ → Option Nat
  | [], _ => none
  | item :: rest, random =>
    if random < item.2 then some item.1 else pickLoop rest (random - item.2)

/-- The weighted draw of `generateTargetSquare` (its final loop together
with the fall-through `return weightedPool[0].sq`). -/
def pickFromPool (pool : List (Nat × ℚ)) (random : ℚ) : Nat :=
  match pickLoop pool random with
  | some sq => sq
  | none => (pool.headD (0, 0)).1

/-- `generateTargetSquare(pieces, history)`, with the single draw of the
ambient `Math.random()` the call makes passed in as `rnd ∈ [0, 1)`.
Returns `-1` as the "no target possible" sentinel. -/
def generateTargetSquare (pieces : List Piece) (history : List String) (rnd : ℚ) : Int :=
  let uniqueTargets := uniqueTargetsOf pieces
  if uniqueTargets.length = 0 then
    let allMoves := allMovesOf pieces
    if allMoves.length = 0 then -1
    else ((allMoves.getD (Int.toNat ⌊rnd * allMoves.length⌋) 0 : Nat) : Int)
  else
    let weightedPool := weightedPoolOf pieces history
    let totalPoolWeight := (weightedPool.map (·.2)).sum
    if totalPoolWeight ≤ 0 then
      ((uniqueTargets.getD (Int.toNat ⌊rnd * uniqueTargets.length⌋) 0 : Nat) : Int)
    else
      ((pickFromPool weightedPool (rnd * totalPoolWeight) : Nat) : Int)

/-! ## History update (app component, `handlePieceSelect`) -/

/-- The history-update step applied after each accepted move: append the
moved piece's id, then drop the oldest entry once the length exceeds 5. -/
def updateHistory (history : List String) (pid : String) : List String :=
  let updated := history ++ [pid]
  if 5 < updated.length then updated.tail else updated

/-! ## Derived definitions used by the claims -/

/-- The specification's wording of the per-piece weight: "1.0, minus 0.3
for each occurrence of that piece's id in history, additionally minus 0.6
if the piece is the most-recently-moved, forced to exactly 0 if the last
two history entries both equal this piece's id, clamped to a minimum
of 0". -/
def specPieceWeight (history : List String) (pid : String) : ℚ :=
  max 0
    (if history.drop (history.length - 2) = [pid, pid] then 0
     else 1 - (3 / 10) * history.count pid -
       (if history.getLast? = some pid then 6 / 10 else 0))

/-- The square `k` steps along the direction `(dr, dc)` from board
coordinates `(row, col)`. -/
def raySq (row col dr dc : Int) (k : Nat) : Nat :=
  ((row + k * dr) * 8 + (col + k * dc)).toNat

/-- The position `k` steps along the direction `(dr, dc)` stays on the
board. -/
def rayOn (row col dr dc : Int) (k : Nat) : Prop :=
  onBoard (row + k * dr) (col + k * dc)

/-- The direction set `getLegalMoves` slides along for each sliding
piece kind (empty for the single-step and unhandled kinds). -/
def slidingDirections : PieceType -> List (Int × Int)
  | .ROOK => rookDirections
  | .BISHOP => bishopDirections
  | .QUEEN => queenDirections
  | _ => []

/-- A one-knight board: the knight on a8 reaches exactly the two empty
squares 10 and 17, each a unique target of weight 1. -/
def oneKnightBoard : List Piece := [⟨"a", .KNIGHT, .WHITE, 0, true⟩]

/-- A board with distinct ids and no unique target: the four knights
(squares 0, 4, 16, 20) all reach square 10, knights on 16 and 20 also
both reach square 26, and the pawns (which have no moves) block every
other knight destination.  Reach counts: square 10 ↦ 4, square 26 ↦ 2. -/
def noUniqueBoard : List Piece :=
  [⟨"a", .KNIGHT, .WHITE, 0, true⟩,
   ⟨"b", .KNIGHT, .WHITE, 4, true⟩,
   ⟨"c", .KNIGHT, .WHITE, 16, true⟩,
   ⟨"d", .KNIGHT, .WHITE, 20, true⟩,
   ⟨"e", .PAWN, .WHITE, 17, true⟩,
   ⟨"f", .PAWN, .WHITE, 1, true⟩,
   ⟨"g", .PAWN, .WHITE, 33, true⟩,
   ⟨"h", .PAWN, .WHITE, 3, true⟩,
   ⟨"i", .PAWN, .WHITE, 5, true⟩,
   ⟨"j", .PAWN, .WHITE, 14, true⟩,
   ⟨"k", .PAWN, .WHITE, 30, true⟩,
   ⟨"l", .PAWN, .WHITE, 35, true⟩,
   ⟨"m", .PAWN, .WHITE, 37, true⟩,
   ⟨"n", .PAWN, .WHITE, 19, true⟩,
   ⟨"o", .PAWN, .WHITE, 21, true⟩]

/-- A board with a duplicated id: the knights on 0 and 4 each reach only
square 10 (count 2, so no unique target), but the later pawns reuse the
knights' ids "x" and "y", overwriting their `pieceMoves` entries with
empty lists. -/
def dupIdBoard : List Piece :=
  [⟨"x", .KNIGHT, .WHITE, 0, true⟩,
   ⟨"y", .KNIGHT, .WHITE, 4, true⟩,
   ⟨"x", .PAWN, .WHITE, 17, true⟩,
   ⟨"x", .PAWN, .WHITE, 14, true⟩,
   ⟨"x", .PAWN, .WHITE, 19, true⟩,
   ⟨"y", .PAWN, .WHITE, 21, true⟩]

/-- A board where the single unique target square 10 is reached only by
the knight, whose id can fill the whole history. -/
def spamBoard : List Piece := [⟨"a", .KNIGHT, .WHITE, 0, true⟩, ⟨"b", .PAWN, .WHITE, 17, true⟩]

/-! ## Helper lemmas: JavaScript collection primitives -/

theorem mem_jsSetAux : ∀ (l seen : List Nat) (x : Nat),
    x ∈ jsSetAux l seen ↔ x ∈ l ∧ x ∉ seen := by
  intro l
  induction l with
  | nil => intro seen x; simp [jsSetAux]
  | cons a l ih =>
    intro seen x
    by_cases ha : a ∈ seen
    · rw [jsSetAux, if_pos ha, ih]
      constructor
      · rintro ⟨h1, h2⟩; exact ⟨List.mem_cons_of_mem _ h1, h2⟩
      · rintro ⟨h1, h2⟩
        rcases List.mem_cons.mp h1 with rfl | h1'
        · exact absurd ha h2
        · exact ⟨h1', h2⟩
    · rw [jsSetAux, if_neg ha]
      simp only [List.mem_cons, ih, not_or]
      constructor
      · rintro (rfl | ⟨hl, _, hs⟩)
        · exact ⟨Or.inl rfl, ha⟩
        · exact ⟨Or.inr hl, hs⟩
      · rintro ⟨rfl | hl, hs⟩
        · exact Or.inl rfl
        · by_cases hxa : x = a
          · exact Or.inl hxa
          · exact Or.inr ⟨hl, hxa, hs⟩

theorem mem_jsSet (l : List Nat) (x : Nat) : x ∈ jsSet l ↔ x ∈ l := by
  simp [jsSet, mem_jsSetAux]

theorem nodup_jsSetAux : ∀ (l seen : List Nat), (jsSetAux l seen).Nodup := by
  intro l
  induction l with
  | nil => intro seen; simp [jsSetAux]
  | cons a l ih =>
    intro seen
    by_cases ha : a ∈ seen
    · rw [jsSetAux, if_pos ha]; exact ih seen
    · rw [jsSetAux, if_neg ha]
      refine List.nodup_cons.mpr ⟨?_, ih (a :: seen)⟩
      intro hmem
      exact ((mem_jsSetAux l (a :: seen) a).mp hmem).2 (List.mem_cons_self a seen)

theorem nodup_jsSet (l : List Nat) : (jsSet l).Nodup := nodup_jsSetAux l []

theorem mapSet_entry {K V : Type} [DecidableEq K] (m : List (K × V)) (k : K) (v : V)
    (e : K × V) (he : e ∈ mapSet m k v) : e ∈ m ∨ e = (k, v) := by
  unfold mapSet at he
  split at he
  · rcases List.mem_map.mp he with ⟨e', he', hrep⟩
    by_cases hk : e'.1 = k
    · rw [if_pos hk] at hrep; exact Or.inr hrep.symm
    · rw [if_neg hk] at hrep; exact Or.inl (hrep ▸ he')
  · rcases List.mem_append.mp he with h | h
    · exact Or.inl h
    · exact Or.inr (List.mem_singleton.mp h)

theorem mapGet_some {K V : Type} [DecidableEq K] (m : List (K × V)) (k : K) (v : V)
    (h : mapGet m k = some v) : (k, v) ∈ m := by
  unfold mapGet at h
  cases hf : List.find? (fun e => decide (e.1 = k)) m with
  | none => rw [hf] at h; simp at h
  | some e =>
    rw [hf] at h
    have hmem := List.mem_of_find?_eq_some hf
    have hkey : e.1 = k := by simpa using List.find?_some hf
    have hv : e.2 = v := by simpa using h
    rcases e with ⟨ek, ev⟩
    simp only at hkey hv
    subst hkey; subst hv
    exact hmem

/-- Every entry of a `foldl`-over-`mapSet` map either survives from the
initial map or was inserted by one of the folded elements. -/
theorem foldl_mapSet_entry {K V A : Type} [DecidableEq K] (key : A → K) (val : A → V) :
    ∀ (l : List A) (m₀ : List (K × V)) (e : K × V),
      e ∈ l.foldl (fun m p => mapSet m (key p) (val p)) m₀ →
      e ∈ m₀ ∨ ∃ p ∈ l, e = (key p, val p) := by
  intro l
  induction l with
  | nil => intro m₀ e he; exact Or.inl he
  | cons p l ih =>
    intro m₀ e he
    rw [List.foldl_cons] at he
    rcases ih (mapSet m₀ (key p) (val p)) e he with h | ⟨q, hq, hval⟩
    · rcases mapSet_entry _ _ _ _ h with h' | h'
      · exact Or.inl h'
      · exact Or.inr ⟨p, List.mem_cons_self _ _, h'⟩
    · exact Or.inr ⟨q, List.mem_cons_of_mem _ hq, hval⟩

/-- When the folded keys never collide with the accumulator and are
pairwise distinct, a `foldl`-over-`mapSet` is a plain append. -/
theorem foldl_mapSet_of_nodup {K V A : Type} [DecidableEq K] (key : A → K) (val : A → V) :
    ∀ (l : List A) (m₀ : List (K × V)),
      (l.map key).Nodup → (∀ p ∈ l, ∀ e ∈ m₀, e.1 ≠ key p) →
      l.foldl (fun m p => mapSet m (key p) (val p)) m₀
        = m₀ ++ l.map (fun p => (key p, val p)) := by
  intro l
  induction l with
  | nil => intro m₀ _ _; simp
  | cons p l ih =>
    intro m₀ hnd hdisj
    rw [List.foldl_cons]
    have habs : ¬ m₀.any (fun e => decide (e.1 = key p)) := by
      simp only [List.any_eq_true, decide_eq_true_eq, not_exists, not_and]
      intro e he
      exact hdisj p (List.mem_cons_self _ _) e he
    have hset : mapSet m₀ (key p) (val p) = m₀ ++ [(key p, val p)] := by
      unfold mapSet
      rw [if_neg (by simpa using habs)]
    rw [hset]
    rw [List.map_cons, List.nodup_cons] at hnd
    have hdisj' : ∀ q ∈ l, ∀ e ∈ m₀ ++ [(key p, val p)], e.1 ≠ key q := by
      intro q hq e he
      rcases List.mem_append.mp he with he' | he'
      · exact hdisj q (List.mem_cons_of_mem _ hq) e he'
      · rw [List.mem_singleton.mp he']
        intro hkey
        simp only at hkey
        exact hnd.1 (hkey ▸ List.mem_map_of_mem key hq)
    rw [ih (m₀ ++ [(key p, val p)]) hnd.2 hdisj']
    simp

/-- Membership in the value-concatenating fold of `allMoves`. -/
theorem mem_foldl_append {K : Type} :
    ∀ (l : List (K × List Nat)) (init : List Nat) (x : Nat),
      x ∈ l.foldl (fun acc e => acc ++ e.2) init ↔ x ∈ init ∨ ∃ e ∈ l, x ∈ e.2 := by
  intro l
  induction l with
  | nil => intro init x; simp
  | cons e l ih =>
    intro init x
    rw [List.foldl_cons, ih]
    simp only [List.mem_append, List.mem_cons]
    constructor
    · rintro ((hx | hx) | ⟨e', he', hx⟩)
      · exact Or.inl hx
      · exact Or.inr ⟨e, Or.inl rfl, hx⟩
      · exact Or.inr ⟨e', Or.inr he', hx⟩
    · rintro (hx | ⟨e', (rfl | he'), hx⟩)
      · exact Or.inl (Or.inl hx)
      · exact Or.inl (Or.inr hx)
      · exact Or.inr ⟨e', he', hx⟩

/-! ## Helper lemmas: the selector's intermediate structures -/

theorem validMovesOf_unoccupied (pieces : List Piece) (p : Piece) (s : Nat)
    (hs : s ∈ validMovesOf pieces p) : ∀ q ∈ pieces, q.square ≠ s := by
  unfold validMovesOf at hs
  have := (List.mem_filter.mp hs).2
  intro q hq
  simp only [Bool.not_eq_true', List.any_eq_false, decide_eq_true_eq] at this
  simpa using this q hq

theorem validMovesOf_nodup (pieces : List Piece) (p : Piece) :
    (validMovesOf pieces p).Nodup := by
  unfold validMovesOf
  exact (nodup_jsSet _).filter _

theorem mem_validMovesOf_getLegalMoves (pieces : List Piece) (p : Piece) (s : Nat)
    (hs : s ∈ validMovesOf pieces p) :
    s ∈ getLegalMoves p.square p.type
      ((pieces.map Piece.square).filter (fun sq => decide (sq ≠ p.square))) := by
  unfold validMovesOf at hs
  exact (List.mem_filter.mp hs).1

/-- Every key of the reach-count map is reached by some piece. -/
theorem squareReachCounts_key (pieces : List Piece) :
    ∀ e ∈ squareReachCounts pieces, ∃ p ∈ pieces, e.1 ∈ validMovesOf pieces p := by
  have main : ∀ (l : List Piece) (cr : List (Nat × Nat) × List (Nat × String)),
      (∀ e ∈ cr.1, ∃ p ∈ pieces, e.1 ∈ validMovesOf pieces p) →
      (∀ p ∈ l, p ∈ pieces) →
      ∀ e ∈ (l.foldl (fun cr p => tallyMoves cr p.id (validMovesOf pieces p)) cr).1,
        ∃ p ∈ pieces, e.1 ∈ validMovesOf pieces p := by
    intro l
    induction l with
    | nil => intro cr hcr _ e he; exact hcr e he
    | cons p l ih =>
      intro cr hcr hl e he
      rw [List.foldl_cons] at he
      refine ih _ ?_ (fun q hq => hl q (List.mem_cons_of_mem _ hq)) e he
      -- one `tallyMoves` step preserves the key invariant
      have hp : p ∈ pieces := hl p (List.mem_cons_self _ _)
      have step : ∀ (vm : List Nat) (cr' : List (Nat × Nat) × List (Nat × String)),
          (∀ m ∈ vm, m ∈ validMovesOf pieces p) →
          (∀ e ∈ cr'.1, ∃ q ∈ pieces, e.1 ∈ validMovesOf pieces q) →
          ∀ e ∈ (tallyMoves cr' p.id vm).1, ∃ q ∈ pieces, e.1 ∈ validMovesOf pieces q := by
        intro vm
        induction vm with
        | nil => intro cr' _ hcr' e he; exact hcr' e he
        | cons m vm ihm =>
          intro cr' hvm hcr' e he
          rw [tallyMoves, List.foldl_cons] at he
          refine ihm _ (fun m' hm' => hvm m' (List.mem_cons_of_mem _ hm')) ?_ e he
          intro e' he'
          rcases mapSet_entry _ _ _ _ he' with h | h
          · exact hcr' e' h
          · exact ⟨p, hp, by rw [h]; exact hvm m (List.mem_cons_self _ _)⟩
      exact step (validMovesOf pieces p) cr (fun m hm => hm) hcr
  intro e he
  exact main pieces ([], []) (by simp) (fun p hp => hp) e he

theorem uniqueTargetsOf_reached (pieces : List Piece) (s : Nat)
    (hs : s ∈ uniqueTargetsOf pieces) : ∃ p ∈ pieces, s ∈ validMovesOf pieces p := by
  unfold uniqueTargetsOf at hs
  rcases List.mem_map.mp hs with ⟨e, he, rfl⟩
  exact squareReachCounts_key pieces e (List.mem_filter.mp he).1

/-- Every entry of the `pieceMoves` map is a piece's id with its valid
move list. -/
theorem pieceMovesOf_entry (pieces : List Piece) :
    ∀ e ∈ pieceMovesOf pieces, ∃ p ∈ pieces, e = (p.id, validMovesOf pieces p) := by
  intro e he
  rcases foldl_mapSet_entry Piece.id (validMovesOf pieces) pieces [] e he with h | h
  · simp at h
  · exact h

theorem mem_allMovesOf (pieces : List Piece) (s : Nat) (hs : s ∈ allMovesOf pieces) :
    ∃ p ∈ pieces, s ∈ validMovesOf pieces p := by
  unfold allMovesOf at hs
  rcases (mem_foldl_append _ _ _).mp hs with h | ⟨e, he, hmem⟩
  · simp at h
  · rcases pieceMovesOf_entry pieces e he with ⟨p, hp, rfl⟩
    exact ⟨p, hp, hmem⟩

/-- With pairwise-distinct piece ids, the `pieceMoves` map lists every
piece's valid move list, in order. -/
theorem pieceMovesOf_of_nodup (pieces : List Piece)
    (hids : (pieces.map Piece.id).Nodup) :
    pieceMovesOf pieces = pieces.map (fun p => (p.id, validMovesOf pieces p)) := by
  unfold pieceMovesOf
  rw [foldl_mapSet_of_nodup Piece.id (validMovesOf pieces) pieces [] hids (by simp)]
  simp

/-- Every entry of the `pieceWeights` map carries the weight of its key. -/
theorem pieceWeightsOf_entry (pieces : List Piece) (history : List String) :
    ∀ e ∈ pieceWeightsOf pieces history, e.2 = weightOf history e.1 := by
  intro e he
  rcases foldl_mapSet_entry Piece.id (fun p => weightOf history p.id) pieces [] e he with h | h
  · simp at h
  · rcases h with ⟨p, _, rfl⟩
    rfl

theorem weightOf_nonneg (history : List String) (pid : String) :
    0 ≤ weightOf history pid := le_max_left 0 _

theorem weightedPoolOf_weight_nonneg (pieces : List Piece) (history : List String) :
    ∀ e ∈ weightedPoolOf pieces history, 0 ≤ e.2 := by
  intro e he
  unfold weightedPoolOf at he
  rcases List.mem_map.mp he with ⟨sq, _, rfl⟩
  cases hw : mapGet (pieceWeightsOf pieces history)
      ((mapGet (squareReacher pieces) sq).getD "") with
  | none => simp [hw]
  | some w =>
    have := pieceWeightsOf_entry pieces history _ (mapGet_some _ _ _ hw)
    simp only at this
    simp [hw, this, weightOf_nonneg]

theorem weightedPoolOf_fst (pieces : List Piece) (history : List String) :
    (weightedPoolOf pieces history).map Prod.fst = uniqueTargetsOf pieces := by
  unfold weightedPoolOf
  rw [List.map_map]
  exact List.map_id'' (fun x => rfl) _

/-! ## Helper lemmas: the weighted draw -/

theorem pickLoop_mem : ∀ (pool : List (Nat × ℚ)) (r : ℚ) (sq : Nat),
    pickLoop pool r = some sq → sq ∈ pool.map Prod.fst := by
  intro pool
  induction pool with
  | nil => intro r sq h; simp [pickLoop] at h
  | cons item rest ih =>
    intro r sq h
    rw [pickLoop] at h
    split at h
    · simp only [Option.some.injEq] at h
      simp [← h]
    · simpa using Or.inr (by simpa using ih (r - item.2) sq h)

theorem pickFromPool_mem (pool : List (Nat × ℚ)) (r : ℚ) (hne : pool ≠ []) :
    pickFromPool pool r ∈ pool.map Prod.fst := by
  unfold pickFromPool
  cases hp : pickLoop pool r with
  | some sq => exact pickLoop_mem pool r sq hp
  | none =>
    rcases pool with _ | ⟨item, rest⟩
    · exact absurd rfl hne
    · simp [List.headD]

/-- The loop returns the first pool entry whose cumulative weight
strictly exceeds the draw value. -/
theorem pickLoop_first_exceeding : ∀ (pool : List (Nat × ℚ)) (r : ℚ), 0 ≤ r →
    r < (pool.map Prod.snd).sum →
    ∃ i : Fin pool.length,
      pickLoop pool r = some (pool.get i).1 ∧
      r < ((pool.take (i.1 + 1)).map Prod.snd).sum ∧
      ∀ j : Nat, j < i.1 → ((pool.take (j + 1)).map Prod.snd).sum ≤ r := by
  intro pool
  induction pool with
  | nil => intro r h0 hr; simp at hr; exact absurd hr (not_lt.mpr h0)
  | cons item rest ih =>
    intro r h0 hr
    by_cases hfirst : r < item.2
    · refine ⟨⟨0, by simp⟩, ?_, ?_, ?_⟩
      · rw [pickLoop, if_pos hfirst]
        rfl
      · simp only [List.take_succ_cons, List.take_zero, List.map_cons, List.map_nil,
          List.sum_cons, List.sum_nil, add_zero]
        exact hfirst
      · intro j hj
        exact absurd hj (Nat.not_lt_zero j)
    · push_neg at hfirst
      have h0' : 0 ≤ r - item.2 := by linarith
      have hr' : r - item.2 < (rest.map Prod.snd).sum := by
        rw [List.map_cons, List.sum_cons] at hr
        linarith
      rcases ih (r - item.2) h0' hr' with ⟨i, hpick, hcum, hmin⟩
      refine ⟨⟨i.1 + 1, by simp [Nat.succ_lt_succ i.2]⟩, ?_, ?_, ?_⟩
      · rw [pickLoop, if_neg (not_lt.mpr hfirst)]
        simp only [List.get_cons_succ]
        exact hpick
      · rw [List.take_succ_cons, List.map_cons, List.sum_cons]
        linarith [hcum]
      · intro j hj
        rcases j with _ | j'
        · simpa using hfirst
        · have := hmin j' (Nat.lt_of_succ_lt_succ hj)
          rw [List.take_succ_cons, List.map_cons, List.sum_cons]
          linarith

/-- With nonnegative weights and a draw at or beyond the total, the loop
falls through. -/
theorem pickLoop_none_of_total_le : ∀ (pool : List (Nat × ℚ)) (r : ℚ),
    (∀ e ∈ pool, 0 ≤ e.2) → (pool.map Prod.snd).sum ≤ r →
    pickLoop pool r = none := by
  intro pool
  induction pool with
  | nil => intro r _ _; rfl
  | cons item rest ih =>
    intro r hnn hr
    rw [List.map_cons, List.sum_cons] at hr
    have hrest : 0 ≤ (rest.map Prod.snd).sum := by
      apply List.sum_nonneg
      intro w hw
      rcases List.mem_map.mp hw with ⟨e, he, rfl⟩
      exact hnn e (List.mem_cons_of_mem _ he)
    rw [pickLoop, if_neg (by push_neg; linarith)]
    exact ih (r - item.2) (fun e he => hnn e (List.mem_cons_of_mem _ he)) (by linarith)

/-! ## Helper lemmas: index arithmetic and branch analysis -/

theorem floor_index_lt (n : Nat) (hn : n ≠ 0) (rnd : ℚ) (h0 : 0 ≤ rnd) (h1 : rnd < 1) :
    Int.toNat ⌊rnd * (n : ℚ)⌋ < n := by
  have hnpos : (0 : ℚ) < n := by
    exact_mod_cast Nat.pos_of_ne_zero hn
  have hmul : rnd * n < n := by
    calc rnd * n < 1 * n := by exact mul_lt_mul_of_pos_right h1 hnpos
    _ = n := one_mul _
  have hfl : ⌊rnd * (n : ℚ)⌋ < (n : ℤ) := by
    apply Int.floor_lt.mpr
    exact_mod_cast hmul
  have hfl0 : 0 ≤ ⌊rnd * (n : ℚ)⌋ := Int.floor_nonneg.mpr (by positivity)
  omega

theorem getD_mem {l : List Nat} {n : Nat} (h : n < l.length) (d : Nat) :
    l.getD n d ∈ l := by
  rw [List.getD_eq_getElem l d h]
  exact l.getElem_mem h

/-- Whenever `generateTargetSquare` does not return the sentinel, its
result is a square of some piece's valid move set. -/
theorem generateTargetSquare_result (pieces : List Piece) (history : List String)
    (rnd : ℚ) (h0 : 0 ≤ rnd) (h1 : rnd < 1)
    (hne : generateTargetSquare pieces history rnd ≠ -1) :
    ∃ s : Nat, generateTargetSquare pieces history rnd = (s : Int) ∧
      ∃ p ∈ pieces, s ∈ validMovesOf pieces p := by
  unfold generateTargetSquare at hne ⊢
  by_cases hu : (uniqueTargetsOf pieces).length = 0
  · rw [if_pos hu] at hne ⊢
    by_cases ha : (allMovesOf pieces).length = 0
    · rw [if_pos ha] at hne
      exact absurd rfl hne
    · rw [if_neg ha] at hne ⊢
      refine ⟨(allMovesOf pieces).getD (Int.toNat ⌊rnd * (allMovesOf pieces).length⌋) 0,
        rfl, ?_⟩
      exact mem_allMovesOf pieces _
        (getD_mem (floor_index_lt _ ha rnd h0 h1) 0)
  · rw [if_neg hu] at hne ⊢
    by_cases hw : ((weightedPoolOf pieces history).map (Prod.snd)).sum ≤ 0
    · rw [if_pos hw] at hne ⊢
      refine ⟨(uniqueTargetsOf pieces).getD
        (Int.toNat ⌊rnd * (uniqueTargetsOf pieces).length⌋) 0, rfl, ?_⟩
      exact uniqueTargetsOf_reached pieces _
        (getD_mem (floor_index_lt _ hu rnd h0 h1) 0)
    · rw [if_neg hw] at hne ⊢
      refine ⟨pickFromPool (weightedPoolOf pieces history)
        (rnd * ((weightedPoolOf pieces history).map (Prod.snd)).sum), rfl, ?_⟩
      have hpoolne : weightedPoolOf pieces history ≠ [] := by
        intro hempty
        rw [hempty] at hw
        simp at hw
      have hmem := pickFromPool_mem (weightedPoolOf pieces history)
        (rnd * ((weightedPoolOf pieces history).map (Prod.snd)).sum) hpoolne
      rw [weightedPoolOf_fst] at hmem
      exact uniqueTargetsOf_reached pieces _ hmem

/-- The selector only ever returns the sentinel or a natural square. -/
theorem generateTargetSquare_shape (pieces : List Piece) (history : List String)
    (rnd : ℚ) :
    generateTargetSquare pieces history rnd = -1 ∨
      0 ≤ generateTargetSquare pieces history rnd := by
  unfold generateTargetSquare
  by_cases hu : (uniqueTargetsOf pieces).length = 0
  · rw [if_pos hu]
    by_cases ha : (allMovesOf pieces).length = 0
    · rw [if_pos ha]; exact Or.inl rfl
    · rw [if_neg ha]; exact Or.inr (Int.natCast_nonneg _)
  · rw [if_neg hu]
    by_cases hw : ((weightedPoolOf pieces history).map (Prod.snd)).sum ≤ 0
    · rw [if_pos hw]; exact Or.inr (Int.natCast_nonneg _)
    · rw [if_neg hw]; exact Or.inr (Int.natCast_nonneg _)

/-! ## Helper lemmas: `allMoves` as a concatenation -/

theorem foldl_append_eq_flatten {K : Type} :
    ∀ (l : List (K × List Nat)) (init : List Nat),
      l.foldl (fun acc e => acc ++ e.2) init = init ++ (l.map Prod.snd).flatten := by
  intro l
  induction l with
  | nil => intro init; simp
  | cons e l ih =>
    intro init
    rw [List.foldl_cons, ih]
    simp

theorem allMovesOf_eq_flatten (pieces : List Piece)
    (hids : (pieces.map Piece.id).Nodup) :
    allMovesOf pieces = (pieces.map (fun p => validMovesOf pieces p)).flatten := by
  unfold allMovesOf
  rw [foldl_append_eq_flatten, pieceMovesOf_of_nodup pieces hids, List.nil_append,
    List.map_map]
  rfl

theorem mem_allMovesOf_of_valid (pieces : List Piece)
    (hids : (pieces.map Piece.id).Nodup) (p : Piece) (hp : p ∈ pieces) (s : Nat)
    (hs : s ∈ validMovesOf pieces p) : s ∈ allMovesOf pieces := by
  rw [allMovesOf_eq_flatten pieces hids]
  rw [List.mem_flatten]
  exact ⟨validMovesOf pieces p, List.mem_map_of_mem _ hp, hs⟩

/-- Counting occurrences in a concatenation of duplicate-free lists:
one slot per list that contains the element. -/
theorem count_flatten_of_nodup {A : Type} (v : A → List Nat) (s : Nat)
    (hnd : ∀ a, (v a).Nodup) :
    ∀ l : List A, ((l.map v).flatten).count s
      = (l.filter (fun a => decide (s ∈ v a))).length := by
  intro l
  induction l with
  | nil => simp
  | cons a l ih =>
    rw [List.map_cons, List.flatten_cons, List.count_append, ih]
    by_cases hm : s ∈ v a
    · rw [List.count_eq_one_of_mem (hnd a) hm]
      have : decide (s ∈ v a) = true := by simp [hm]
      simp only [List.filter_cons, this, if_true, List.length_cons]
      omega
    · rw [List.count_eq_zero_of_not_mem hm]
      simp [List.filter_cons, hm]

theorem allMovesOf_count (pieces : List Piece)
    (hids : (pieces.map Piece.id).Nodup) (s : Nat) :
    (allMovesOf pieces).count s
      = (pieces.filter (fun p => decide (s ∈ validMovesOf pieces p))).length := by
  rw [allMovesOf_eq_flatten pieces hids]
  exact count_flatten_of_nodup _ s (validMovesOf_nodup pieces) pieces

/-! ## Helper lemmas: weight formula bridges -/

theorem filter_eq_count (l : List String) (pid : String) :
    (l.filter (fun id => decide (id = pid))).length = l.count pid := by
  induction l with
  | nil => simp
  | cons a l ih =>
    by_cases ha : a = pid
    · subst ha
      simp [List.filter_cons, List.count_cons, ih]
    · simp [List.filter_cons, List.count_cons, ha, ih]

theorem last_cond_iff (l : List String) (pid : String) :
    (0 < l.length ∧ l.get? (l.length - 1) = some pid) ↔ l.getLast? = some pid := by
  rcases l with _ | ⟨a, t⟩
  · simp
  · rw [List.getLast?_eq_get?]
    simp

theorem lastTwo_iff : ∀ (l : List String) (pid : String),
    l.drop (l.length - 2) = [pid, pid] ↔
      (2 ≤ l.length ∧ l.get? (l.length - 1) = some pid ∧
        l.get? (l.length - 2) = some pid) := by
  intro l
  induction l with
  | nil => intro pid; simp
  | cons a l ih =>
    intro pid
    rcases l with _ | ⟨b, t⟩
    · simp
    · rcases t with _ | ⟨c, t'⟩
      · -- the two-element list [a, b]
        constructor
        · intro h
          simp only [List.length_cons, List.length_nil] at h ⊢
          norm_num at h ⊢
          exact ⟨h.2, h.1⟩
        · rintro ⟨-, h1, h2⟩
          simp only [List.length_cons, List.length_nil] at h1 h2 ⊢
          norm_num at h1 h2 ⊢
          exact ⟨h2, h1⟩
      · -- length ≥ 3: peel the head and reuse the inductive hypothesis
        have e1 : (a :: b :: c :: t').length - 2 = ((b :: c :: t').length - 2) + 1 := by
          simp only [List.length_cons]; omega
        have e3 : (a :: b :: c :: t').length - 1 = ((b :: c :: t').length - 1) + 1 := by
          simp only [List.length_cons]; omega
        rw [e1, e3, List.drop_succ_cons, List.get?_cons_succ, List.get?_cons_succ, ih pid]
        have hl1 : 2 ≤ (a :: b :: c :: t').length := by
          simp only [List.length_cons]; omega
        have hl2 : 2 ≤ (b :: c :: t').length := by
          simp only [List.length_cons]; omega
        constructor
        · rintro ⟨-, h1, h2⟩; exact ⟨hl1, h1, h2⟩
        · rintro ⟨-, h1, h2⟩; exact ⟨hl2, h1, h2⟩

theorem weightOf_eq_zero_of_last_two (history : List String) (pid : String)
    (hlen : 2 ≤ history.length)
    (h1 : history.get? (history.length - 1) = some pid)
    (h2 : history.get? (history.length - 2) = some pid) :
    weightOf history pid = 0 := by
  simp only [weightOf]
  rw [if_pos ⟨hlen, h1, h2⟩]
  simp

/-! ## Helper lemmas: the history update -/

theorem updateHistory_eq (h : List String) (pid : String) (hlen : h.length ≤ 5) :
    updateHistory h pid = (h ++ [pid]).drop ((h ++ [pid]).length - 5) := by
  unfold updateHistory
  by_cases hl : 5 < (h ++ [pid]).length
  · rw [if_pos hl]
    have hone : (h ++ [pid]).length - 5 = 1 := by
      simp only [List.length_append, List.length_singleton] at hl ⊢
      omega
    rw [hone, List.drop_one]
  · rw [if_neg hl]
    have hzero : (h ++ [pid]).length - 5 = 0 := by omega
    rw [hzero, List.drop_zero]

theorem updateHistory_len (h : List String) (pid : String) (hlen : h.length ≤ 5) :
    (updateHistory h pid).length ≤ 5 := by
  rw [updateHistory_eq h pid hlen, List.length_drop]
  omega

theorem foldl_updateHistory (ids : List String) : ∀ h₀ : List String, h₀.length ≤ 5 →
    ids.foldl updateHistory h₀ = (h₀ ++ ids).drop ((h₀ ++ ids).length - 5) := by
  induction ids with
  | nil =>
    intro h₀ hl
    have hzero : (h₀ ++ []).length - 5 = 0 := by simp; omega
    rw [List.foldl_nil, hzero, List.drop_zero, List.append_nil]
  | cons pid ids ih =>
    intro h₀ hl
    rw [List.foldl_cons, ih _ (updateHistory_len h₀ pid hl), updateHistory_eq h₀ pid hl]
    have hk : (h₀ ++ [pid]).length - 5 ≤ (h₀ ++ [pid]).length := by omega
    rw [← List.drop_append_of_le_length hk, List.drop_drop]
    have harr : h₀ ++ pid :: ids = (h₀ ++ [pid]) ++ ids := by simp
    rw [harr]
    congr 1
    simp only [List.length_append, List.length_drop, List.length_singleton, List.length_cons]
    omega

/-! ## Helper lemmas: the two copies of the move generator -/

theorem slideAuxB_eq (b : List Nat) (dr dc : Int) :
    ∀ (fuel : Nat) (r c : Int), slideAuxB b dr dc fuel r c = slideAux b dr dc fuel r c := by
  intro fuel
  induction fuel with
  | zero => intro r c; rfl
  | succ n ih =>
    intro r c
    simp only [slideAuxB, slideAux]
    split_ifs <;> simp [ih]

/-! ## Claim theorems -/

/-- C5: for every piece id and every history of length at most 5, the
selector's per-piece weight equals 1.0, minus 0.3 per occurrence of the
id in the history, minus 0.6 additionally if the history's last entry is
the id, forced to exactly 0 if the last two history entries both equal
the id, and clamped to a minimum of 0. -/
theorem C5_piece_weight_formula (history : List String) (pid : String)
    (hlen : history.length ≤ 5) :
    weightOf history pid = specPieceWeight history pid := by
  simp only [weightOf, specPieceWeight]
  rw [filter_eq_count]
  by_cases hTwo : 2 ≤ history.length ∧ history.get? (history.length - 1) = some pid ∧
      history.get? (history.length - 2) = some pid
  · rw [if_pos hTwo, if_pos ((lastTwo_iff history pid).mpr hTwo)]
  · rw [if_neg hTwo, if_neg (fun hc => hTwo ((lastTwo_iff history pid).mp hc))]
    by_cases hLast : history.getLast? = some pid
    · rw [if_pos ((last_cond_iff history pid).mpr hLast), if_pos hLast]
      congr 1
      ring
    · rw [if_neg (fun hc => hLast ((last_cond_iff history pid).mp hc)), if_neg hLast]
      congr 1
      ring

/-- Witness for C5, at the length-2 history `["a", "a"]` and id `"a"`. -/
theorem C5_piece_weight_formula_witness :
    (["a", "a"] : List String).length ≤ 5 ∧
      weightOf ["a", "a"] "a" = specPieceWeight ["a", "a"] "a" :=
  ⟨by decide, C5_piece_weight_formula ["a", "a"] "a" (by decide)⟩

/-- C9: from any history of length at most 5, the update step yields a
history of length at most 5 that is exactly the 5-entry suffix of the
appended sequence; hence after 6 or more successful moves the history is
exactly the 5 most recent piece ids, in order. -/
theorem C9_history_capacity (h₀ : List String) (ids : List String) (pid : String)
    (hh : h₀.length ≤ 5) :
    (updateHistory h₀ pid).length ≤ 5 ∧
    updateHistory h₀ pid = (h₀ ++ [pid]).drop ((h₀ ++ [pid]).length - 5) ∧
    (6 ≤ ids.length → ids.foldl updateHistory h₀ = ids.drop (ids.length - 5)) := by
  refine ⟨updateHistory_len h₀ pid hh, updateHistory_eq h₀ pid hh, ?_⟩
  intro hids
  rw [foldl_updateHistory ids h₀ hh]
  have hamt : (h₀ ++ ids).length - 5 = h₀.length + (ids.length - 5) := by
    simp only [List.length_append]
    omega
  rw [hamt, List.drop_append]

/-- Witness for C9, at the empty initial history and a 6-move sequence. -/
theorem C9_history_capacity_witness :
    (([] : List String).length ≤ 5) ∧
    ((updateHistory [] "x").length ≤ 5 ∧
      updateHistory [] "x" = (([] : List String) ++ ["x"]).drop
        ((([] : List String) ++ ["x"]).length - 5) ∧
      (6 ≤ (["a", "b", "c", "d", "e", "f"] : List String).length →
        (["a", "b", "c", "d", "e", "f"] : List String).foldl updateHistory []
          = (["a", "b", "c", "d", "e", "f"] : List String).drop
              ((["a", "b", "c", "d", "e", "f"] : List String).length - 5))) :=
  ⟨by decide, C9_history_capacity [] ["a", "b", "c", "d", "e", "f"] "x" (by decide)⟩

/-- C10: the two `getLegalMoves` implementations in the source (the one
beside `generateTargetSquare` and the standalone documented copy) are
extensionally equal. -/
theorem C10_copies_extensionally_equal (square : Nat) (t : PieceType)
    (blockers : List Nat) :
    getLegalMoves square t blockers = getLegalMovesB square t blockers := by
  cases t <;>
    simp [getLegalMoves, getLegalMovesB, addSlidingMoves, addSlidingMovesB, slideAuxB_eq]

/-! ## Concrete evaluations used by witnesses -/

theorem noUnique_eval : generateTargetSquare noUniqueBoard [] 0 = 10 := by
  have h1 : uniqueTargetsOf noUniqueBoard = [] := by decide
  have h2 : allMovesOf noUniqueBoard = [10, 10, 10, 26, 10, 26] := by decide
  unfold generateTargetSquare
  rw [h1, h2]
  norm_num

theorem oneKnight_pool : weightedPoolOf oneKnightBoard [] = [(10, 1), (17, 1)] := by
  have h1 : uniqueTargetsOf oneKnightBoard = [10, 17] := by decide
  have h2 : squareReacher oneKnightBoard = [(10, "a"), (17, "a")] := by decide
  have h3 : pieceWeightsOf oneKnightBoard [] = [("a", weightOf [] "a")] := by
    simp [pieceWeightsOf, mapSet, oneKnightBoard]
  have h4 : weightOf [] "a" = 1 := by norm_num [weightOf]
  simp [weightedPoolOf, h1, h2, h3, h4, mapGet]

/-- C1: on a board of pieces with pairwise-distinct squares in `[0,63]`,
whenever the selector returns a square (not the sentinel), that square is
not the current square of any piece — in every branch, including the
no-unique-target fallback. -/
theorem C1_target_square_unoccupied (pieces : List Piece) (history : List String)
    (rnd : ℚ) (hsq : ∀ p ∈ pieces, p.square ≤ 63)
    (hdist : (pieces.map Piece.square).Nodup)
    (h0 : 0 ≤ rnd) (h1 : rnd < 1)
    (hne : generateTargetSquare pieces history rnd ≠ -1) :
    ∀ p ∈ pieces, (p.square : Int) ≠ generateTargetSquare pieces history rnd := by
  rcases generateTargetSquare_result pieces history rnd h0 h1 hne with
    ⟨s, hs, q, hq, hmem⟩
  intro p hp
  rw [hs]
  have hneq := validMovesOf_unoccupied pieces q s hmem p hp
  exact_mod_cast hneq

/-- Witness for C1, on the fifteen-piece fallback board. -/
theorem C1_target_square_unoccupied_witness :
    (∀ p ∈ noUniqueBoard, p.square ≤ 63) ∧ (noUniqueBoard.map Piece.square).Nodup ∧
    ((0 : ℚ) ≤ 0) ∧ ((0 : ℚ) < 1) ∧ generateTargetSquare noUniqueBoard [] 0 ≠ -1 ∧
    (∀ p ∈ noUniqueBoard, (p.square : Int) ≠ generateTargetSquare noUniqueBoard [] 0) :=
  ⟨by decide, by decide, le_refl 0, zero_lt_one,
   by rw [noUnique_eval]; decide,
   C1_target_square_unoccupied noUniqueBoard [] 0 (by decide) (by decide) (le_refl 0)
     zero_lt_one (by rw [noUnique_eval]; decide)⟩

/-- C7 counterexample: on a board whose later pawns reuse the knights'
ids, the `pieceMoves` map entries of the knights are overwritten by empty
lists, so the selector returns the sentinel although a knight still has a
valid move.  The claim as stated (the sentinel is returned iff every
piece's valid move set is empty) is therefore false. -/
theorem C7_counterexample :
    generateTargetSquare dupIdBoard [] 0 = -1 ∧
      ¬ (∀ p ∈ dupIdBoard, validMovesOf dupIdBoard p = []) :=
  ⟨by decide, by decide⟩

/-- C7 (amended): with pairwise-distinct piece ids, the selector returns
the sentinel `-1` iff every piece's valid move set is empty, and in every
other case returns a (nonnegative) square. -/
theorem C7_sentinel_iff (pieces : List Piece) (history : List String) (rnd : ℚ)
    (hids : (pieces.map Piece.id).Nodup) :
    (generateTargetSquare pieces history rnd = -1 ↔
      ∀ p ∈ pieces, validMovesOf pieces p = []) ∧
    (generateTargetSquare pieces history rnd ≠ -1 →
      0 ≤ generateTargetSquare pieces history rnd) := by
  constructor
  · constructor
    · intro hres
      intro p hp
      unfold generateTargetSquare at hres
      by_cases hu : (uniqueTargetsOf pieces).length = 0
      · rw [if_pos hu] at hres
        by_cases ha : (allMovesOf pieces).length = 0
        · by_contra hne
          rcases List.exists_mem_of_ne_nil _ hne with ⟨s, hs⟩
          have hmem := mem_allMovesOf_of_valid pieces hids p hp s hs
          rw [List.length_eq_zero.mp ha] at hmem
          exact absurd hmem (List.not_mem_nil s)
        · rw [if_neg ha] at hres
          have := Int.natCast_nonneg
            ((allMovesOf pieces).getD (Int.toNat ⌊rnd * (allMovesOf pieces).length⌋) 0)
          omega
      · rw [if_neg hu] at hres
        by_cases hw : ((weightedPoolOf pieces history).map Prod.snd).sum ≤ 0
        · rw [if_pos hw] at hres
          have := Int.natCast_nonneg
            ((uniqueTargetsOf pieces).getD
              (Int.toNat ⌊rnd * (uniqueTargetsOf pieces).length⌋) 0)
          omega
        · rw [if_neg hw] at hres
          have := Int.natCast_nonneg
            (pickFromPool (weightedPoolOf pieces history)
              (rnd * ((weightedPoolOf pieces history).map Prod.snd).sum))
          omega
    · intro hall
      have hu : uniqueTargetsOf pieces = [] := by
        rw [List.eq_nil_iff_forall_not_mem]
        intro s hs
        rcases uniqueTargetsOf_reached pieces s hs with ⟨p, hp, hmem⟩
        rw [hall p hp] at hmem
        exact absurd hmem (List.not_mem_nil s)
      have ha : allMovesOf pieces = [] := by
        rw [List.eq_nil_iff_forall_not_mem]
        intro s hs
        rcases mem_allMovesOf pieces s hs with ⟨p, hp, hmem⟩
        rw [hall p hp] at hmem
        exact absurd hmem (List.not_mem_nil s)
      unfold generateTargetSquare
      rw [if_pos (by rw [hu]; rfl), if_pos (by rw [ha]; rfl)]
  · intro hne
    rcases generateTargetSquare_shape pieces history rnd with h | h
    · exact absurd h hne
    · exact h

/-- Witness for the amended C7, on the two-piece board with distinct ids. -/
theorem C7_sentinel_iff_witness :
    (spamBoard.map Piece.id).Nodup ∧
    ((generateTargetSquare spamBoard [] 0 = -1 ↔
        ∀ p ∈ spamBoard, validMovesOf spamBoard p = []) ∧
      (generateTargetSquare spamBoard [] 0 ≠ -1 →
        0 ≤ generateTargetSquare spamBoard [] 0)) :=
  ⟨by decide, C7_sentinel_iff spamBoard [] 0 (by decide)⟩

/-- C3 counterexample: a board (distinct squares, distinct ids) with no
unique target on which the fallback pool contains square 10 four times
and square 26 twice — the distinct squares of the union do NOT occupy the
same number of slots in the pool the uniform index is drawn from, so the
draw is not uniform over distinct squares. -/
theorem C3_counterexample :
    uniqueTargetsOf noUniqueBoard = [] ∧
    (noUniqueBoard.map Piece.square).Nodup ∧
    (noUniqueBoard.map Piece.id).Nodup ∧
    allMovesOf noUniqueBoard ≠ [] ∧
    (10 : Nat) ∈ allMovesOf noUniqueBoard ∧ (26 : Nat) ∈ allMovesOf noUniqueBoard ∧
    (allMovesOf noUniqueBoard).count 10 = 4 ∧ (allMovesOf noUniqueBoard).count 26 = 2 :=
  ⟨by decide, by decide, by decide, by decide, by decide, by decide, by decide, by decide⟩

/-- C3 (amended): with pairwise-distinct piece ids, when no square has
reach count exactly 1 and some piece has a valid move, the selector draws
the entry at index `⌊rnd · N⌋` of the concatenation of all pieces' valid
move lists (`N` its length) — uniform over the concatenation, in which
each distinct square occupies one slot per piece that reaches it (its
reachability count), not one slot per distinct square. -/
theorem C3_fallback_concatenation_draw (pieces : List Piece) (history : List String)
    (rnd : ℚ) (hids : (pieces.map Piece.id).Nodup)
    (hdist : (pieces.map Piece.square).Nodup)
    (h0 : 0 ≤ rnd) (h1 : rnd < 1)
    (hu : uniqueTargetsOf pieces = []) (hne : allMovesOf pieces ≠ []) :
    generateTargetSquare pieces history rnd
      = (((allMovesOf pieces).getD
            (Int.toNat ⌊rnd * (allMovesOf pieces).length⌋) 0 : Nat) : Int)
    ∧ ∀ s : Nat, (allMovesOf pieces).count s
        = (pieces.filter (fun p => decide (s ∈ validMovesOf pieces p))).length := by
  constructor
  · unfold generateTargetSquare
    rw [if_pos (by rw [hu]; rfl), if_neg (by simpa using hne)]
  · intro s
    exact allMovesOf_count pieces hids s

/-- Witness for the amended C3, on the fifteen-piece fallback board. -/
theorem C3_fallback_concatenation_draw_witness :
    (noUniqueBoard.map Piece.id).Nodup ∧ (noUniqueBoard.map Piece.square).Nodup ∧
    ((0 : ℚ) ≤ 0) ∧ ((0 : ℚ) < 1) ∧
    uniqueTargetsOf noUniqueBoard = [] ∧ allMovesOf noUniqueBoard ≠ [] ∧
    (generateTargetSquare noUniqueBoard [] 0
      = (((allMovesOf noUniqueBoard).getD
            (Int.toNat ⌊(0 : ℚ) * (allMovesOf noUniqueBoard).length⌋) 0 : Nat) : Int)) :=
  ⟨by decide, by decide, le_refl 0, zero_lt_one, by decide, by decide,
   (C3_fallback_concatenation_draw noUniqueBoard [] 0 (by decide) (by decide)
      (le_refl 0) zero_lt_one (by decide) (by decide)).1⟩

/-- C4 counterexample: on the two-entry pool with weights 1 and 1 and a
draw value equal to the total (2), the walk falls through and the source
returns `weightedPool[0].sq` — the FIRST pool entry (square 1), not the
final pool entry (square 2) that the claim promises. -/
theorem C4_counterexample :
    (([((1 : Nat), (1 : ℚ)), (2, 1)].map Prod.snd).sum = 2) ∧
    pickFromPool [((1 : Nat), (1 : ℚ)), (2, 1)] 2 = 1 ∧
    ([((1 : Nat), (1 : ℚ)), (2, 1)].getLast? = some (2, 1)) ∧
    (1 : Nat) ≠ 2 := by
  refine ⟨by norm_num, ?_, by rfl, by decide⟩
  norm_num [pickFromPool, pickLoop]

/-- C4 (amended): with positive total pool weight, the selector's
weighted branch returns `pickFromPool` of the pool at the draw value
`rnd · totalWeight`; a draw below the total yields the first pool square
whose cumulative weight strictly exceeds the draw, and a draw at or
beyond the total yields the FIRST pool entry (not the final one). -/
theorem C4_weighted_draw (pieces : List Piece) (history : List String) (rnd : ℚ)
    (h0 : 0 ≤ rnd)
    (hu : uniqueTargetsOf pieces ≠ [])
    (hw : 0 < ((weightedPoolOf pieces history).map Prod.snd).sum) :
    generateTargetSquare pieces history rnd
      = ((pickFromPool (weightedPoolOf pieces history)
            (rnd * ((weightedPoolOf pieces history).map Prod.snd).sum) : Nat) : Int)
    ∧ (rnd * ((weightedPoolOf pieces history).map Prod.snd).sum
          < ((weightedPoolOf pieces history).map Prod.snd).sum →
        ∃ i : Fin (weightedPoolOf pieces history).length,
          pickFromPool (weightedPoolOf pieces history)
              (rnd * ((weightedPoolOf pieces history).map Prod.snd).sum)
            = ((weightedPoolOf pieces history).get i).1 ∧
          rnd * ((weightedPoolOf pieces history).map Prod.snd).sum
            < (((weightedPoolOf pieces history).take (i.1 + 1)).map Prod.snd).sum ∧
          ∀ j : Nat, j < i.1 →
            (((weightedPoolOf pieces history).take (j + 1)).map Prod.snd).sum
              ≤ rnd * ((weightedPoolOf pieces history).map Prod.snd).sum)
    ∧ (((weightedPoolOf pieces history).map Prod.snd).sum
          ≤ rnd * ((weightedPoolOf pieces history).map Prod.snd).sum →
        pickFromPool (weightedPoolOf pieces history)
            (rnd * ((weightedPoolOf pieces history).map Prod.snd).sum)
          = ((weightedPoolOf pieces history).headD (0, 0)).1) := by
  refine ⟨?_, ?_, ?_⟩
  · unfold generateTargetSquare
    rw [if_neg (by simpa using hu), if_neg (not_le.mpr hw)]
  · intro hlt
    rcases pickLoop_first_exceeding (weightedPoolOf pieces history)
        (rnd * ((weightedPoolOf pieces history).map Prod.snd).sum)
        (mul_nonneg h0 hw.le) hlt with ⟨i, hpick, hcum, hmin⟩
    refine ⟨i, ?_, hcum, hmin⟩
    unfold pickFromPool
    rw [hpick]
  · intro hge
    have hnone := pickLoop_none_of_total_le (weightedPoolOf pieces history)
      (rnd * ((weightedPoolOf pieces history).map Prod.snd).sum)
      (weightedPoolOf_weight_nonneg pieces history) hge
    unfold pickFromPool
    rw [hnone]

/-- Witness for the amended C4, on the one-knight board. -/
theorem C4_weighted_draw_witness :
    ((0 : ℚ) ≤ 0) ∧ uniqueTargetsOf oneKnightBoard ≠ [] ∧
    (0 < ((weightedPoolOf oneKnightBoard []).map Prod.snd).sum) ∧
    generateTargetSquare oneKnightBoard [] 0
      = ((pickFromPool (weightedPoolOf oneKnightBoard [])
            ((0 : ℚ) * ((weightedPoolOf oneKnightBoard []).map Prod.snd).sum) : Nat) : Int) :=
  ⟨le_refl 0, by decide, by rw [oneKnight_pool]; norm_num,
   (C4_weighted_draw oneKnightBoard [] 0 (le_refl 0) (by decide)
      (by rw [oneKnight_pool]; norm_num)).1⟩

/-- C6: if the unique-target list is exactly one square `s`, the sole
reacher of `s` is the piece whose id fills the last two history entries,
and no piece has any valid move other than `s`, the selector still
returns `s` (the zero-weight rule only matters among several targets). -/
theorem C6_spammed_sole_target (pieces : List Piece) (history : List String)
    (rnd : ℚ) (s : Nat) (pid : String)
    (h1 : uniqueTargetsOf pieces = [s])
    (h2 : mapGet (squareReacher pieces) s = some pid)
    (hlen : 2 ≤ history.length)
    (hl1 : history.get? (history.length - 1) = some pid)
    (hl2 : history.get? (history.length - 2) = some pid)
    (h4 : ∀ p ∈ pieces, ∀ m ∈ validMovesOf pieces p, m = s)
    (h0 : 0 ≤ rnd) (hr1 : rnd < 1) :
    generateTargetSquare pieces history rnd = (s : Int) := by
  have hwzero : (mapGet (pieceWeightsOf pieces history) pid).getD 0 = 0 := by
    cases hg : mapGet (pieceWeightsOf pieces history) pid with
    | none => rfl
    | some v =>
      have hv := pieceWeightsOf_entry pieces history _ (mapGet_some _ _ _ hg)
      simp only at hv
      rw [Option.getD_some, hv]
      exact weightOf_eq_zero_of_last_two history pid hlen hl1 hl2
  have hpool : weightedPoolOf pieces history
      = [(s, (mapGet (pieceWeightsOf pieces history) pid).getD 0)] := by
    unfold weightedPoolOf
    rw [h1]
    simp [h2]
  unfold generateTargetSquare
  rw [h1, if_neg (by simp)]
  have hsum : ((weightedPoolOf pieces history).map Prod.snd).sum = 0 := by
    rw [hpool]
    simp [hwzero]
  rw [if_pos (le_of_eq hsum)]
  have hfl : ⌊rnd * (([s].length : Nat) : ℚ)⌋ = 0 := by
    simp only [List.length_singleton, Nat.cast_one, mul_one]
    exact Int.floor_eq_zero_iff.mpr ⟨h0, hr1⟩
  rw [hfl]
  rfl

/-- Witness for C6, on the knight-and-pawn board with the knight's id
filling the whole history. -/
theorem C6_spammed_sole_target_witness :
    uniqueTargetsOf spamBoard = [10] ∧
    mapGet (squareReacher spamBoard) 10 = some "a" ∧
    2 ≤ (["a", "a"] : List String).length ∧
    (["a", "a"] : List String).get? ((["a", "a"] : List String).length - 1) = some "a" ∧
    (["a", "a"] : List String).get? ((["a", "a"] : List String).length - 2) = some "a" ∧
    (∀ p ∈ spamBoard, ∀ m ∈ validMovesOf spamBoard p, m = 10) ∧
    ((0 : ℚ) ≤ 0) ∧ ((0 : ℚ) < 1) ∧
    generateTargetSquare spamBoard ["a", "a"] 0 = (10 : Int) :=
  ⟨by decide, by decide, by decide, by decide, by decide, by decide,
   le_refl 0, zero_lt_one,
   C6_spammed_sole_target spamBoard ["a", "a"] 0 10 "a" (by decide) (by decide)
     (by decide) (by decide) (by decide) (by decide) (le_refl 0) zero_lt_one⟩

/-! ## Helper lemmas: the sliding ray -/

theorem raySq_zero (row col dr dc : Int) :
    raySq row col dr dc 0 = (row * 8 + col).toNat := by
  unfold raySq
  norm_num

theorem rayOn_zero (row col dr dc : Int) :
    rayOn row col dr dc 0 ↔ onBoard row col := by
  unfold rayOn
  norm_num

theorem raySq_succ (row col dr dc : Int) (k : Nat) :
    raySq row col dr dc (k + 1) = raySq (row + dr) (col + dc) dr dc k := by
  unfold raySq
  have h1 : row + ((k + 1 : Nat) : Int) * dr = (row + dr) + (k : Int) * dr := by
    push_cast
    ring
  have h2 : col + ((k + 1 : Nat) : Int) * dc = (col + dc) + (k : Int) * dc := by
    push_cast
    ring
  rw [h1, h2]

theorem rayOn_succ (row col dr dc : Int) (k : Nat) :
    rayOn row col dr dc (k + 1) ↔ rayOn (row + dr) (col + dc) dr dc k := by
  unfold rayOn
  have h1 : row + ((k + 1 : Nat) : Int) * dr = (row + dr) + (k : Int) * dr := by
    push_cast
    ring
  have h2 : col + ((k + 1 : Nat) : Int) * dc = (col + dc) + (k : Int) * dc := by
    push_cast
    ring
  rw [h1, h2]

/-- Characterization of the sliding loop: its members are exactly the ray
squares reached before the fuel runs out, all of them on the board, with
no blocker strictly before. -/
theorem slideAux_mem_iff (blockers : List Nat) (dr dc : Int) :
    ∀ (fuel : Nat) (r c : Int) (t : Nat),
      t ∈ slideAux blockers dr dc fuel r c ↔
      ∃ k : Nat, k < fuel ∧ (∀ j : Nat, j ≤ k → rayOn r c dr dc j) ∧
        (∀ j : Nat, j < k → raySq r c dr dc j ∉ blockers) ∧
        t = raySq r c dr dc k := by
  intro fuel
  induction fuel with
  | zero => intro r c t; simp [slideAux]
  | succ n ih =>
    intro r c t
    simp only [slideAux]
    by_cases hob : onBoard r c
    · rw [if_pos hob]
      by_cases hb : ((r * 8 + c).toNat) ∈ blockers
      · rw [if_pos hb]
        constructor
        · intro hmem
          rw [List.mem_singleton] at hmem
          refine ⟨0, Nat.succ_pos n, ?_, ?_, ?_⟩
          · intro j hj
            interval_cases j
            exact (rayOn_zero r c dr dc).mpr hob
          · intro j hj
            exact absurd hj (Nat.not_lt_zero j)
          · rw [hmem, raySq_zero]
        · rintro ⟨k, hk, hon, hnb, ht⟩
          rcases k with _ | k'
          · rw [List.mem_singleton, ht, raySq_zero]
          · have := hnb 0 (Nat.succ_pos k')
            rw [raySq_zero] at this
            exact absurd hb this
      · rw [if_neg hb]
        rw [List.mem_cons, ih (r + dr) (c + dc) t]
        constructor
        · rintro (rfl | ⟨k, hk, hon, hnb, ht⟩)
          · refine ⟨0, Nat.succ_pos n, ?_, ?_, ?_⟩
            · intro j hj
              interval_cases j
              exact (rayOn_zero r c dr dc).mpr hob
            · intro j hj
              exact absurd hj (Nat.not_lt_zero j)
            · rw [raySq_zero]
          · refine ⟨k + 1, Nat.succ_lt_succ hk, ?_, ?_, ?_⟩
            · intro j hj
              rcases j with _ | j'
              · exact (rayOn_zero r c dr dc).mpr hob
              · rw [rayOn_succ]
                exact hon j' (Nat.le_of_succ_le_succ hj)
            · intro j hj
              rcases j with _ | j'
              · rw [raySq_zero]
                exact hb
              · rw [raySq_succ]
                exact hnb j' (Nat.lt_of_succ_lt_succ hj)
            · rw [raySq_succ]
              exact ht
        · rintro ⟨k, hk, hon, hnb, ht⟩
          rcases k with _ | k'
          · left
            rw [ht, raySq_zero]
          · right
            refine ⟨k', Nat.lt_of_succ_lt_succ hk, ?_, ?_, ?_⟩
            · intro j hj
              have := hon (j + 1) (Nat.succ_le_succ hj)
              rwa [rayOn_succ] at this
            · intro j hj
              have := hnb (j + 1) (Nat.succ_lt_succ hj)
              rwa [raySq_succ] at this
            · rw [ht, raySq_succ]
    · rw [if_neg hob]
      simp only [List.not_mem_nil, false_iff, not_exists]
      rintro k ⟨_, hon, _, _⟩
      exact hob ((rayOn_zero r c dr dc).mp (hon 0 (Nat.zero_le k)))

/-- Membership in `addSlidingMoves` phrased from the origin square: the
ray squares at steps `1 ≤ k ≤ slideFuel`, all on the board, with no
blocker strictly between the origin and the square. -/
theorem mem_addSlidingMoves (blockers : List Nat) (row col : Int)
    (dirs : List (Int × Int)) (t : Nat) :
    t ∈ addSlidingMoves blockers row col dirs ↔
      ∃ d ∈ dirs, ∃ k : Nat, 1 ≤ k ∧ k < slideFuel + 1 ∧
        (∀ j : Nat, 1 ≤ j → j ≤ k → rayOn row col d.1 d.2 j) ∧
        (∀ j : Nat, 1 ≤ j → j < k → raySq row col d.1 d.2 j ∉ blockers) ∧
        t = raySq row col d.1 d.2 k := by
  unfold addSlidingMoves
  rw [List.mem_flatMap]
  constructor
  · rintro ⟨d, hd, hmem⟩
    rcases (slideAux_mem_iff blockers d.1 d.2 slideFuel (row + d.1) (col + d.2) t).mp hmem
      with ⟨k, hk, hon, hnb, ht⟩
    refine ⟨d, hd, k + 1, Nat.succ_pos k, Nat.succ_lt_succ hk, ?_, ?_, ?_⟩
    · intro j h1j hjk
      rcases j with _ | j'
      · exact absurd h1j (by omega)
      · rw [rayOn_succ]
        exact hon j' (Nat.le_of_succ_le_succ hjk)
    · intro j h1j hjk
      rcases j with _ | j'
      · exact absurd h1j (by omega)
      · rw [raySq_succ]
        exact hnb j' (Nat.lt_of_succ_lt_succ hjk)
    · rw [raySq_succ]
      exact ht
  · rintro ⟨d, hd, k, hk1, hkf, hon, hnb, ht⟩
    refine ⟨d, hd, ?_⟩
    apply (slideAux_mem_iff blockers d.1 d.2 slideFuel (row + d.1) (col + d.2) t).mpr
    rcases k with _ | k'
    · exact absurd hk1 (by omega)
    · refine ⟨k', Nat.lt_of_succ_lt_succ hkf, ?_, ?_, ?_⟩
      · intro j hj
        have := hon (j + 1) (Nat.succ_pos j) (Nat.succ_le_succ hj)
        rwa [rayOn_succ] at this
      · intro j hj
        have := hnb (j + 1) (Nat.succ_pos j) (Nat.succ_lt_succ hj)
        rwa [raySq_succ] at this
      · rw [← raySq_succ]
        exact ht

/-! ## Helper lemmas: unit directions on the 8×8 board -/

/-- Shorthand for "each component is a unit step and the direction is
nonzero" — true of every rook, bishop and queen direction. -/
def unitDir (d : Int × Int) : Prop :=
  (d.1 = -1 ∨ d.1 = 0 ∨ d.1 = 1) ∧ (d.2 = -1 ∨ d.2 = 0 ∨ d.2 = 1) ∧
    ¬ (d.1 = 0 ∧ d.2 = 0)

instance (d : Int × Int) : Decidable (unitDir d) := by unfold unitDir; infer_instance

theorem ray_k_bound (row col dr dc : Int) (k : Nat) (hu : unitDir (dr, dc))
    (h0 : onBoard row col) (hk : rayOn row col dr dc k) : k ≤ 7 := by
  rcases hu with ⟨hdr, hdc, hnz⟩
  simp only at hdr hdc hnz
  unfold rayOn at hk
  unfold onBoard at hk h0
  rcases hdr with rfl | rfl | rfl <;> rcases hdc with rfl | rfl | rfl <;> omega

theorem rayOn_between (row col dr dc : Int) (j m : Nat) (hu : unitDir (dr, dc))
    (h0 : onBoard row col) (hm : rayOn row col dr dc m) (hjm : j ≤ m) :
    rayOn row col dr dc j := by
  rcases hu with ⟨hdr, hdc, hnz⟩
  simp only at hdr hdc hnz
  unfold rayOn at hm ⊢
  unfold onBoard at hm h0 ⊢
  rcases hdr with rfl | rfl | rfl <;> rcases hdc with rfl | rfl | rfl <;> omega

/-- Two on-board positions with the same encoded square coincide. -/
theorem encode_inj (r c r' c' : Int) (h : onBoard r c) (h' : onBoard r' c')
    (he : (r * 8 + c).toNat = (r' * 8 + c').toNat) : r = r' ∧ c = c' := by
  unfold onBoard at h h'
  omega

/-- On one ray with a nonzero unit direction, distinct steps give
distinct positions. -/
theorem ray_step_inj (row col dr dc : Int) (k m : Nat) (hu : unitDir (dr, dc))
    (heq : row + (k : Int) * dr = row + (m : Int) * dr ∧
      col + (k : Int) * dc = col + (m : Int) * dc) : k = m := by
  rcases hu with ⟨hdr, hdc, hnz⟩
  simp only at hdr hdc hnz
  obtain ⟨e1, e2⟩ := heq
  rcases hdr with rfl | rfl | rfl <;> rcases hdc with rfl | rfl | rfl <;> omega

/-- Distinct nonzero unit directions never reach the same position in a
positive number of steps. -/
theorem ray_distinct (row col : Int) (d d' : Int × Int) (k m : Nat)
    (hu : unitDir d) (hu' : unitDir d') (hne : d ≠ d')
    (hk : 1 ≤ k) (hm : 1 ≤ m)
    (heq : row + (k : Int) * d.1 = row + (m : Int) * d'.1 ∧
      col + (k : Int) * d.2 = col + (m : Int) * d'.2) : False := by
  rcases d with ⟨dr, dc⟩
  rcases d' with ⟨dr', dc'⟩
  rcases hu with ⟨hdr, hdc, hnz⟩
  rcases hu' with ⟨hdr', hdc', hnz'⟩
  simp only at hdr hdc hnz hdr' hdc' hnz' heq
  have hne' : ¬ (dr = dr' ∧ dc = dc') := by
    rintro ⟨rfl, rfl⟩
    exact hne rfl
  obtain ⟨e1, e2⟩ := heq
  rcases hdr with rfl | rfl | rfl <;> rcases hdc with rfl | rfl | rfl <;>
    rcases hdr' with rfl | rfl | rfl <;> rcases hdc' with rfl | rfl | rfl <;> omega

/-! ## Helper lemmas: inclusion and exclusion along a sliding ray -/

theorem addSliding_includes (blockers : List Nat) (row col : Int)
    (dirs : List (Int × Int)) (dr dc : Int) (hd : (dr, dc) ∈ dirs)
    (hunit : ∀ d ∈ dirs, unitDir d) (h0 : onBoard row col)
    (k : Nat) (hk : 1 ≤ k) (hon : rayOn row col dr dc k)
    (hnb : ∀ j : Nat, 1 ≤ j → j < k → raySq row col dr dc j ∉ blockers) :
    raySq row col dr dc k ∈ addSlidingMoves blockers row col dirs := by
  apply (mem_addSlidingMoves blockers row col dirs _).mpr
  refine ⟨(dr, dc), hd, k, hk, ?_, ?_, hnb, rfl⟩
  · have := ray_k_bound row col dr dc k (hunit (dr, dc) hd) h0 hon
    simp only [slideFuel]
    omega
  · intro j _ hjk
    exact rayOn_between row col dr dc j k (hunit (dr, dc) hd) h0 hon hjk

theorem addSliding_excludes_beyond (blockers : List Nat) (row col : Int)
    (dirs : List (Int × Int)) (dr dc : Int) (hd : (dr, dc) ∈ dirs)
    (hunit : ∀ d ∈ dirs, unitDir d) (h0 : onBoard row col)
    (k m : Nat) (hk : 1 ≤ k) (hkm : k < m)
    (hon : rayOn row col dr dc m)
    (hb : raySq row col dr dc k ∈ blockers) :
    raySq row col dr dc m ∉ addSlidingMoves blockers row col dirs := by
  intro hmem
  rcases (mem_addSlidingMoves blockers row col dirs _).mp hmem with
    ⟨d', hd', n, hn1, _, hon', hnb', heqt⟩
  have hu := hunit (dr, dc) hd
  have hu' := hunit d' hd'
  have honm : onBoard (row + (m : Int) * dr) (col + (m : Int) * dc) := hon
  have honn : onBoard (row + (n : Int) * d'.1) (col + (n : Int) * d'.2) :=
    hon' n hn1 (le_refl n)
  have hcoords := encode_inj _ _ _ _ honm honn (by
    have : raySq row col dr dc m = raySq row col d'.1 d'.2 n := heqt
    unfold raySq at this
    exact this)
  by_cases hsame : d' = (dr, dc)
  · subst hsame
    simp only at hcoords honn hnb'
    have hmn : m = n := ray_step_inj row col dr dc m n hu hcoords
    subst hmn
    exact hnb' k hk hkm hb
  · exact ray_distinct row col (dr, dc) d' m n hu hu' (fun h => hsame h.symm)
      (le_trans hk (le_of_lt hkm)) hn1 hcoords

/-- C2: for a square in `[0,63]`, a sliding kind and any direction of its
direction set, `getLegalMoves` contains every on-board ray square up to
and including the first blocker meeting the ray, and no on-board ray
square strictly beyond a blocker in that direction. -/
theorem C2_sliding_stops_at_first_blocker (square : Nat) (hsq : square ≤ 63)
    (t : PieceType)
    (ht : t = PieceType.ROOK ∨ t = PieceType.BISHOP ∨ t = PieceType.QUEEN)
    (blockers : List Nat) (dr dc : Int)
    (hd : (dr, dc) ∈ slidingDirections t) (k : Nat) (hk : 1 ≤ k) :
    ((rayOn ((square / 8 : Nat) : Int) ((square % 8 : Nat) : Int) dr dc k →
      (∀ j : Nat, 1 ≤ j → j < k →
        raySq ((square / 8 : Nat) : Int) ((square % 8 : Nat) : Int) dr dc j ∉ blockers) →
      raySq ((square / 8 : Nat) : Int) ((square % 8 : Nat) : Int) dr dc k
        ∈ getLegalMoves square t blockers)
    ∧ (∀ m : Nat, k < m →
        rayOn ((square / 8 : Nat) : Int) ((square % 8 : Nat) : Int) dr dc m →
        raySq ((square / 8 : Nat) : Int) ((square % 8 : Nat) : Int) dr dc k ∈ blockers →
        raySq ((square / 8 : Nat) : Int) ((square % 8 : Nat) : Int) dr dc m
          ∉ getLegalMoves square t blockers)) := by
  have h0 : onBoard ((square / 8 : Nat) : Int) ((square % 8 : Nat) : Int) := by
    unfold onBoard
    omega
  have hglm : getLegalMoves square t blockers
      = jsSet (addSlidingMoves blockers ((square / 8 : Nat) : Int)
          ((square % 8 : Nat) : Int) (slidingDirections t)) := by
    rcases ht with rfl | rfl | rfl <;> rfl
  have hall : ∀ d ∈ slidingDirections t, unitDir d := by
    rcases ht with rfl | rfl | rfl <;> decide
  constructor
  · intro hon hnb
    rw [hglm, mem_jsSet]
    exact addSliding_includes blockers _ _ (slidingDirections t) dr dc hd hall h0 k hk
      hon hnb
  · intro m hkm hon hb
    rw [hglm, mem_jsSet]
    exact addSliding_excludes_beyond blockers _ _ (slidingDirections t) dr dc hd hall h0
      k m hk hkm hon hb

/-- Witness for C2: the rook on a8 sliding down with a blocker on square
16 reaches 8 and 16 but nothing beyond. -/
theorem C2_sliding_stops_at_first_blocker_witness :
    (0 : Nat) ≤ 63 ∧
    (PieceType.ROOK = PieceType.ROOK ∨ PieceType.ROOK = PieceType.BISHOP ∨
      PieceType.ROOK = PieceType.QUEEN) ∧
    ((1 : Int), (0 : Int)) ∈ slidingDirections PieceType.ROOK ∧ (1 : Nat) ≤ 2 ∧
    ((rayOn (((0 : Nat) / 8 : Nat) : Int) (((0 : Nat) % 8 : Nat) : Int) 1 0 2 →
      (∀ j : Nat, 1 ≤ j → j < 2 →
        raySq (((0 : Nat) / 8 : Nat) : Int) (((0 : Nat) % 8 : Nat) : Int) 1 0 j ∉ [16]) →
      raySq (((0 : Nat) / 8 : Nat) : Int) (((0 : Nat) % 8 : Nat) : Int) 1 0 2
        ∈ getLegalMoves 0 PieceType.ROOK [16])
    ∧ (∀ m : Nat, 2 < m →
        rayOn (((0 : Nat) / 8 : Nat) : Int) (((0 : Nat) % 8 : Nat) : Int) 1 0 m →
        raySq (((0 : Nat) / 8 : Nat) : Int) (((0 : Nat) % 8 : Nat) : Int) 1 0 2 ∈ [16] →
        raySq (((0 : Nat) / 8 : Nat) : Int) (((0 : Nat) % 8 : Nat) : Int) 1 0 m
          ∉ getLegalMoves 0 PieceType.ROOK [16])) :=
  ⟨by decide, Or.inl rfl, by decide, by decide,
   C2_sliding_stops_at_first_blocker 0 (by decide) PieceType.ROOK (Or.inl rfl) [16] 1 0
     (by decide) 2 (by decide)⟩

/-! ## Helper lemmas: bounds for the single-step kinds -/

theorem offset_moves_ok (square : Nat) (hsq : square ≤ 63) (offs : List (Int × Int))
    (hoffs : ∀ d ∈ offs, ¬ (d.1 = 0 ∧ d.2 = 0)) (m : Nat)
    (hm : m ∈ offs.filterMap (fun d =>
      addIfOnBoard (((square / 8 : Nat) : Int) + d.1)
        (((square % 8 : Nat) : Int) + d.2))) :
    m ≠ square ∧ m ≤ 63 := by
  rcases List.mem_filterMap.mp hm with ⟨d, hd, hsome⟩
  unfold addIfOnBoard at hsome
  split at hsome
  · rw [Option.some.injEq] at hsome
    have hnz := hoffs d hd
    rename_i h
    unfold onBoard at h
    omega
  · exact absurd hsome (by simp)

theorem slide_moves_ok (square : Nat) (hsq : square ≤ 63) (blockers : List Nat)
    (dirs : List (Int × Int)) (hunit : ∀ d ∈ dirs, unitDir d) (m : Nat)
    (hm : m ∈ addSlidingMoves blockers ((square / 8 : Nat) : Int)
      ((square % 8 : Nat) : Int) dirs) :
    m ≠ square ∧ m ≤ 63 := by
  rcases (mem_addSlidingMoves blockers _ _ dirs m).mp hm with
    ⟨d, hd, k, hk1, _, hon, _, rfl⟩
  obtain ⟨dr, dc⟩ := d
  rcases hunit (dr, dc) hd with ⟨hdr, hdc, hnz⟩
  simp only at hdr hdc hnz
  have honk := hon k hk1 (le_refl k)
  unfold rayOn onBoard at honk
  unfold raySq
  simp only at honk ⊢
  rcases hdr with rfl | rfl | rfl <;> rcases hdc with rfl | rfl | rfl <;> omega

/-- C8: for every square in `[0,63]`, every piece kind and every blockers
set, every returned square differs from the input square and lies within
`[0,63]`, and the returned list is duplicate-free. -/
theorem C8_moves_wellformed (square : Nat) (hsq : square ≤ 63) (t : PieceType)
    (blockers : List Nat) :
    (∀ m ∈ getLegalMoves square t blockers, m ≠ square ∧ m ≤ 63) ∧
      (getLegalMoves square t blockers).Nodup := by
  constructor
  · intro m hm
    cases t with
    | KNIGHT =>
      rw [show getLegalMoves square PieceType.KNIGHT blockers
          = jsSet (knightOffsets.filterMap (fun d =>
              addIfOnBoard (((square / 8 : Nat) : Int) + d.1)
                (((square % 8 : Nat) : Int) + d.2))) from rfl, mem_jsSet] at hm
      exact offset_moves_ok square hsq knightOffsets (by decide) m hm
    | KING =>
      rw [show getLegalMoves square PieceType.KING blockers
          = jsSet (kingOffsets.filterMap (fun d =>
              addIfOnBoard (((square / 8 : Nat) : Int) + d.1)
                (((square % 8 : Nat) : Int) + d.2))) from rfl, mem_jsSet] at hm
      exact offset_moves_ok square hsq kingOffsets (by decide) m hm
    | ROOK =>
      rw [show getLegalMoves square PieceType.ROOK blockers
          = jsSet (addSlidingMoves blockers ((square / 8 : Nat) : Int)
              ((square % 8 : Nat) : Int) rookDirections) from rfl, mem_jsSet] at hm
      exact slide_moves_ok square hsq blockers rookDirections (by decide) m hm
    | BISHOP =>
      rw [show getLegalMoves square PieceType.BISHOP blockers
          = jsSet (addSlidingMoves blockers ((square / 8 : Nat) : Int)
              ((square % 8 : Nat) : Int) bishopDirections) from rfl, mem_jsSet] at hm
      exact slide_moves_ok square hsq blockers bishopDirections (by decide) m hm
    | QUEEN =>
      rw [show getLegalMoves square PieceType.QUEEN blockers
          = jsSet (addSlidingMoves blockers ((square / 8 : Nat) : Int)
              ((square % 8 : Nat) : Int) queenDirections) from rfl, mem_jsSet] at hm
      exact slide_moves_ok square hsq blockers queenDirections (by decide) m hm
    | PAWN =>
      rw [show getLegalMoves square PieceType.PAWN blockers = jsSet [] from rfl,
        mem_jsSet] at hm
      exact absurd hm (List.not_mem_nil m)
  · cases t <;> exact nodup_jsSet _

/-- Witness for C8: the corner knight. -/
theorem C8_moves_wellformed_witness :
    (0 : Nat) ≤ 63 ∧
    ((∀ m ∈ getLegalMoves 0 PieceType.KNIGHT [], m ≠ 0 ∧ m ≤ 63) ∧
      (getLegalMoves 0 PieceType.KNIGHT []).Nodup) :=
  ⟨by decide, C8_moves_wellformed 0 (by decide) PieceType.KNIGHT []⟩
